import Mathlib

/-!
Verification of the moviePlayer kiosk launcher (`src/player/src/main.rs`)
against its natural-language specification.

The Rust program is shallowly embedded below:

* `buildQueue` embeds the queue-construction part of
  `play_movies_from_index` (lines 368-400).  The outcome of the rand
  library's `shuffle` call is made explicit as a parameter `perm`, the
  list of indices in the order the shuffle produced; theorems quantify
  over every permutation outcome.  A `none` result stands for the Rust
  panic raised by an out-of-range slice index `movies[start..]`.
* `playQueue` embeds the playback loop of `play_movies_from_index`
  (lines 403-447): the list of entries actually handed to the external
  player, given the exit code of each invocation and the autoplay-next
  flag (constant during a session, since playback is single-threaded).
* `collect_movies` embeds the recursive scanner (lines 99-137) over an
  inductive directory-tree model; `is_video` embeds lines 86-91.  File
  names are modelled as `List Char`; case folding is ASCII.
* `format_duration` embeds lines 238-248 with exact rational arithmetic
  in place of `f64`; the `as u64` casts (truncation toward zero of a
  non-negative value) become `Int.floor`/`Int.toNat`.
* `LoopState`/`appStep` embed one iteration of the interactive loop in
  `app` (lines 554-661), with the `rand::thread_rng().gen_range` draw
  made explicit as the parameter `randIdx`.  The overlay-editing
  methods of `impl AppState` (lines 461-502) are embedded as functions
  on `LoopState`.  The cursor `character_index` is counted in
  characters, but Rust `String::insert` takes a byte index and panics
  when that index is not a UTF-8 character boundary; `byteInsert`
  models the insert at byte granularity (each character contributing
  `Char.utf8Size` bytes), returning `none` for the panic, which
  `StepOut.panicked` propagates through the loop step.
-/

namespace MoviePlayer

/-! ### Queue builder (`play_movies_from_index`, lines 368-400) -/

/-- Queue construction of `play_movies_from_index`.  `perm` is the index
order produced by the rand shuffle (`shuffled.shuffle` respectively
`other_idxs.shuffle`); `none` models the panic of `movies[start..]` when
`start > movies.length`. -/
def buildQueue {α : Type} (movies : List α) (start : Nat) (shuffle : Bool)
    (perm : List Nat) : Option (List α) :=
  if movies.isEmpty then some []
  else if shuffle then
    if movies.length ≤ start then
      some (perm.filterMap fun i => movies[i]?)
    else
      match movies[start]? with
      | some m => some (m :: perm.filterMap fun i => movies[i]?)
      | none => none
  else
    if movies.length < start then none
    else some (movies.drop start ++ movies.take start)

/-! ### Playback loop (`play_movies_from_index`, lines 403-447) -/

/-- Entries actually handed to the external player, in order.  `exits k`
is the exit code of the player on the `k`-th invocation of this session;
`autoplay` is the autoplay-next flag (constant while playback runs).
Each played entry is also the target of one best-effort watch
notification, so this list is likewise the list of notified entries. -/
def playQueue {α : Type} : List α → (Nat → Int) → Bool → List α
  | [], _, _ => []
  | m :: rest, exits, autoplay =>
    if exits 0 ≠ 0 then [m]
    else if autoplay then m :: playQueue rest (fun k => exits (k + 1)) autoplay
    else [m]

/-! ### Claim C1: sequential queue is the rotated catalog -/

/-- C1: for every catalog and every `start < n`, sequential (non-shuffle)
queue building succeeds and returns exactly the catalog rotated so that
`start` is first: element `j` of the queue is `catalog[(start + j) % n]`,
and the queue is `catalog[start:] ++ catalog[:start]`. -/
theorem sequential_queue_is_rotation {α : Type} (movies : List α) (start : Nat)
    (hs : start < movies.length) (perm : List Nat) :
    buildQueue movies start false perm =
      some (movies.drop start ++ movies.take start) ∧
    (movies.drop start ++ movies.take start).length = movies.length ∧
    ∀ j, j < movies.length →
      (movies.drop start ++ movies.take start)[j]? =
        movies[(start + j) % movies.length]? := by
  have hne : ¬ movies.isEmpty := by
    cases movies with
    | nil => simp at hs
    | cons a l => simp [List.isEmpty]
  have hrot : movies.rotate start = movies.drop start ++ movies.take start :=
    List.rotate_eq_drop_append_take (Nat.le_of_lt hs)
  refine ⟨?_, ?_, ?_⟩
  · simp [buildQueue, hne, Nat.not_lt.mpr (Nat.le_of_lt hs)]
  · simp only [List.length_append, List.length_drop, List.length_take]
    rw [Nat.min_eq_left (Nat.le_of_lt hs)]
    exact Nat.sub_add_cancel (Nat.le_of_lt hs)
  · intro j hj
    have hjlen : j < (movies.rotate start).length := by
      simpa [List.length_rotate] using hj
    have := List.getElem_rotate movies start j hjlen
    rw [← hrot]
    rw [List.getElem?_eq_getElem hjlen, this]
    have hmod : (start + j) % movies.length < movies.length :=
      Nat.mod_lt _ (Nat.lt_of_le_of_lt (Nat.zero_le _) hs)
    rw [List.getElem?_eq_getElem hmod]
    simp [Nat.add_comm j start]

/-- Witness for C1 at the spec's own example: catalog `[A,B,C,D]` as
`[0,1,2,3]`, `start_index = 2` gives `[2,3,0,1]`. -/
theorem sequential_queue_is_rotation_witness :
    buildQueue [0, 1, 2, 3] 2 false [] = some [2, 3, 0, 1] := by
  have h := sequential_queue_is_rotation [0, 1, 2, 3] 2 (by decide) []
  simpa using h.1

/-- Reading back every index of a list in order reproduces the list. -/
theorem range_filterMap_getElem {α : Type} (xs : List α) :
    ((List.range xs.length).filterMap fun i => xs[i]?) = xs := by
  induction xs with
  | nil => simp
  | cons b t ih =>
    rw [List.length_cons, List.range_succ_eq_map, List.filterMap_cons]
    simp only [List.getElem?_cons_zero, List.filterMap_map]
    have hc : ((fun i => (b :: t)[i]?) ∘ Nat.succ) = fun i => t[i]? := by
      funext i
      simp
    rw [hc, ih]

/-- Reading back every index except `k`, in order, yields the list with
index `k` erased. -/
theorem filter_range_filterMap_getElem {α : Type} :
    ∀ (xs : List α) (k : Nat), k < xs.length →
    (((List.range xs.length).filter fun i => i ≠ k).filterMap
        fun i => xs[i]?) = xs.eraseIdx k := by
  intro xs
  induction xs with
  | nil => intro k hk; simp at hk
  | cons b t ih =>
    intro k hk
    rw [List.length_cons, List.range_succ_eq_map]
    have hc2 : ((fun i => (b :: t)[i]?) ∘ Nat.succ) = fun i => t[i]? := by
      funext i
      simp
    cases k with
    | zero =>
      rw [List.filter_cons_of_neg (by simp)]
      have hall : ((List.range t.length).map Nat.succ).filter
          (fun i => decide (i ≠ 0)) = (List.range t.length).map Nat.succ := by
        apply List.filter_eq_self.mpr
        intro a ha
        rcases List.mem_map.mp ha with ⟨x, _, rfl⟩
        simp
      rw [hall, List.filterMap_map, hc2, range_filterMap_getElem,
        List.eraseIdx_cons_zero]
    | succ j =>
      have hj : j < t.length := Nat.lt_of_succ_lt_succ hk
      rw [List.filter_cons_of_pos (by simp), List.filterMap_cons]
      simp only [List.getElem?_cons_zero]
      rw [List.filter_map, List.filterMap_map, hc2]
      have hcongr : (List.range t.length).filter
          ((fun i => decide (i ≠ j + 1)) ∘ Nat.succ) =
          (List.range t.length).filter (fun i => decide (i ≠ j)) := by
        apply List.filter_congr
        intro a _
        simp only [Function.comp_apply]
        exact decide_eq_decide.mpr (by omega)
      rw [hcongr, ih j hj, List.eraseIdx_cons_succ]

/-! ### Claim C2: shuffle pins the selected entry first -/

/-- C2: for every non-empty catalog and in-range `start`, and for every
outcome `perm` of the rand shuffle of the remaining indices, the shuffled
queue starts with `catalog[start]`, has full length, and its remaining
`n - 1` elements are a permutation (multiset-equal) of the catalog with
the element at `start` removed.  The tail is exactly the image of the
shuffle outcome, so its distribution is the shuffle's: a uniformly
random permutation of the remaining entries (uniformity of the rand
library's Fisher-Yates shuffle is inherited here by quantifying over all
of its possible outcomes). -/
theorem shuffle_queue_pinned_head {α : Type} (movies : List α) (start : Nat)
    (perm : List Nat) (hs : start < movies.length)
    (hperm : perm.Perm ((List.range movies.length).filter fun i => i ≠ start)) :
    ∃ q, buildQueue movies start true perm = some q ∧
      q.head? = movies[start]? ∧
      q.length = movies.length ∧
      q.tail = (perm.filterMap fun i => movies[i]?) ∧
      q.tail.Perm (movies.eraseIdx start) := by
  have hne : ¬ movies.isEmpty := by
    cases movies with
    | nil => simp at hs
    | cons a l => simp [List.isEmpty]
  have hnle : ¬ (movies.length ≤ start) := Nat.not_le.mpr hs
  have hm : movies[start]? = some movies[start] := List.getElem?_eq_getElem hs
  refine ⟨movies[start] :: (perm.filterMap fun i => movies[i]?), ?_, ?_, ?_, ?_, ?_⟩
  · cases movies with
    | nil => simp at hs
    | cons a l =>
      have h' : ¬ (l.length + 1 ≤ start) := by simpa using hnle
      simp only [buildQueue]
      simp [h', hm]
  · simp [hm]
  · have htail : (perm.filterMap fun i => movies[i]?).Perm (movies.eraseIdx start) :=
      (hperm.filterMap _).trans
        (by rw [filter_range_filterMap_getElem movies start hs])
    have hlen : (perm.filterMap fun i => movies[i]?).length =
        (movies.eraseIdx start).length := htail.length_eq
    rw [List.length_cons, hlen, List.length_eraseIdx_of_lt hs]
    omega
  · rfl
  · exact (hperm.filterMap _).trans
      (by rw [filter_range_filterMap_getElem movies start hs])

/-- Witness for C2: catalog `[10, 20, 30, 40]`, `start = 1`, shuffle
outcome `[3, 0, 2]` gives queue `[20, 40, 10, 30]`: head `20 =
catalog[1]`, tail a permutation of `[10, 30, 40]`. -/
theorem shuffle_queue_pinned_head_witness :
    ∃ q, buildQueue ([10, 20, 30, 40] : List Nat) 1 true [3, 0, 2] = some q ∧
      q.head? = ([10, 20, 30, 40] : List Nat)[1]? ∧
      q.length = 4 ∧
      q.tail = [40, 10, 30] ∧
      q.tail.Perm [10, 30, 40] := by
  obtain ⟨q, h1, h2, h3, h4, h5⟩ :=
    shuffle_queue_pinned_head ([10, 20, 30, 40] : List Nat) 1 [3, 0, 2]
      (by decide) (by decide)
  refine ⟨q, h1, h2, h3, ?_, ?_⟩
  · rw [h4]
    rfl
  · have : ([10, 20, 30, 40] : List Nat).eraseIdx 1 = [10, 30, 40] := rfl
    rw [← this]
    exact h5

/-! ### Claim C3: when queue building fails -/

/-- C3 counterexample: the claim says queue building fails with
`IndexError` exactly when `start_index` is outside `[0, n)` and shuffle
is false.  But on catalog `[0]` with `start_index = 1` (out of `[0,1)`)
and shuffle false, the Rust slice `movies[1..]` of a 1-element vector is
the valid empty slice, so the build succeeds and yields the unrotated
catalog instead of failing. -/
theorem build_failure_iff_counterexample :
    1 ≥ ([0] : List Nat).length ∧
    buildQueue ([0] : List Nat) 1 false [] = some [0] := by
  constructor
  · decide
  · rfl

/-- C3 amended: queue building fails (the Rust slice panic, modelled as
`none`) exactly when shuffle is false, the catalog is non-empty, and
`start_index > catalog.len()` (i.e. strictly beyond the end; `start_index
= len` yields the unrotated catalog).  In shuffle mode an out-of-range
`start_index` degrades gracefully to shuffling the entire catalog with
no pinned head: for every permutation outcome covering all indices the
result is a permutation of the whole catalog. -/
theorem build_failure_iff {α : Type} :
    (∀ (movies : List α) (start : Nat) (shuffle : Bool) (perm : List Nat),
      buildQueue movies start shuffle perm = none ↔
        shuffle = false ∧ movies ≠ [] ∧ movies.length < start) ∧
    (∀ (movies : List α) (start : Nat) (perm : List Nat),
      movies.length ≤ start → perm.Perm (List.range movies.length) →
      ∃ q, buildQueue movies start true perm = some q ∧ q.Perm movies) := by
  constructor
  · intro movies start shuffle perm
    cases movies with
    | nil => simp [buildQueue]
    | cons a l =>
      cases shuffle with
      | false =>
        by_cases h : (a :: l).length < start
        · simp [buildQueue, h]
        · simp [buildQueue, h]
      | true =>
        by_cases h : (a :: l).length ≤ start
        · have h' : l.length + 1 ≤ start := by simpa using h
          simp [buildQueue, h']
        · have hlt : start < (a :: l).length := Nat.lt_of_not_le h
          have h' : ¬ (l.length + 1 ≤ start) := by simpa using h
          have hm : (a :: l)[start]? = some (a :: l)[start] :=
            List.getElem?_eq_getElem hlt
          simp [buildQueue, h', hm]
  · intro movies start perm hge hperm
    cases movies with
    | nil =>
      exact ⟨[], by simp [buildQueue], List.Perm.refl _⟩
    | cons a l =>
      refine ⟨perm.filterMap fun i => (a :: l)[i]?, ?_, ?_⟩
      · have hge' : l.length + 1 ≤ start := by simpa using hge
        simp [buildQueue, hge']
      · have h1 : (perm.filterMap fun i => (a :: l)[i]?).Perm
            ((List.range (a :: l).length).filterMap fun i => (a :: l)[i]?) :=
          hperm.filterMap _
        exact h1.trans (by rw [range_filterMap_getElem])

/-- Witness for C3 (amended): on catalog `[0,1]`, sequential build at
`start = 3 > 2` fails, and shuffle build at `start = 5` with permutation
outcome `[1,0]` succeeds with a permutation of the whole catalog. -/
theorem build_failure_iff_witness :
    buildQueue ([0, 1] : List Nat) 3 false [] = none ∧
    ∃ q, buildQueue ([0, 1] : List Nat) 5 true [1, 0] = some q ∧
      q.Perm [0, 1] := by
  constructor
  · exact (build_failure_iff.1 [0, 1] 3 false []).mpr (by simp)
  · exact build_failure_iff.2 [0, 1] 5 [1, 0] (by decide) (by decide)

/-! ### Claim C4: playback continuation policy -/

/-- C4: the playback driver halts immediately on a non-zero player exit
(entries after that position are never invoked), continues past a zero
exit exactly when autoplay-next is true, and with autoplay-next true and
all-zero exits processes every queued entry. -/
theorem playback_continuation {α : Type} :
    (∀ (queue : List α) (exits : Nat → Int),
      (∀ k, k < queue.length → exits k = 0) →
      playQueue queue exits true = queue) ∧
    (∀ (queue : List α) (exits : Nat → Int) (j : Nat),
      j < queue.length → exits j ≠ 0 → (∀ k, k < j → exits k = 0) →
      playQueue queue exits true = queue.take (j + 1)) ∧
    (∀ (m : α) (rest : List α) (exits : Nat → Int) (autoplay : Bool),
      exits 0 = 0 →
      playQueue (m :: rest) exits autoplay =
        m :: (if autoplay
              then playQueue rest (fun k => exits (k + 1)) autoplay
              else [])) := by
  refine ⟨?_, ?_, ?_⟩
  · intro queue
    induction queue with
    | nil => intro exits _; rfl
    | cons m rest ih =>
      intro exits hz
      have h0 : exits 0 = 0 := hz 0 (Nat.succ_pos _)
      have hrest : ∀ k, k < rest.length → exits (k + 1) = 0 := by
        intro k hk
        exact hz (k + 1) (Nat.succ_lt_succ hk)
      simp [playQueue, h0, ih _ hrest]
  · intro queue
    induction queue with
    | nil => intro exits j hj; simp at hj
    | cons m rest ih =>
      intro exits j hj hnz hz
      cases j with
      | zero => simp [playQueue, hnz]
      | succ j =>
        have h0 : exits 0 = 0 := hz 0 (Nat.succ_pos _)
        have hj' : j < rest.length := Nat.lt_of_succ_lt_succ hj
        have hz' : ∀ k, k < j → exits (k + 1) = 0 := by
          intro k hk
          exact hz (k + 1) (Nat.succ_lt_succ hk)
        simp [playQueue, h0, ih (fun k => exits (k + 1)) j hj' hnz hz']
  · intro m rest exits autoplay h0
    cases autoplay with
    | false => simp [playQueue, h0]
    | true => simp [playQueue, h0]

/-- Witness for C4 at the spec's scenario: a 5-entry queue with a
non-zero exit at position 2 (index 1) plays exactly the first two
entries; with all-zero exits and autoplay on, it plays all five. -/
theorem playback_continuation_witness :
    playQueue ([0, 1, 2, 3, 4] : List Nat)
      (fun k => if k = 1 then 1 else 0) true = [0, 1] ∧
    playQueue ([0, 1, 2, 3, 4] : List Nat) (fun _ => 0) true =
      [0, 1, 2, 3, 4] := by
  constructor
  · have h := playback_continuation.2.1 ([0, 1, 2, 3, 4] : List Nat)
      (fun k => if k = 1 then 1 else 0) 1 (by decide) (by decide)
      (by intro k hk; have hk0 : k = 0 := by omega
          subst hk0; decide)
    simpa using h
  · exact playback_continuation.1 ([0, 1, 2, 3, 4] : List Nat)
      (fun _ => 0) (fun k _ => rfl)

/-! ### Claim C10: empty catalog plays nothing -/

/-- C10: on the empty catalog `play_movies_from_index` returns success
immediately for every `start_index` and shuffle flag: the constructed
queue is empty (never an error) and the playback loop invokes the
external player — and therefore sends watch notifications — zero
times. -/
theorem empty_catalog_plays_nothing {α : Type} :
    ∀ (start : Nat) (shuffle : Bool) (perm : List Nat)
      (exits : Nat → Int) (autoplay : Bool),
      buildQueue ([] : List α) start shuffle perm = some [] ∧
      playQueue ([] : List α) exits autoplay = [] := by
  intro start shuffle perm exits autoplay
  exact ⟨by simp [buildQueue], rfl⟩

/-! ### Interactive selection loop (`app`, lines 539-661, and
`impl AppState`, lines 461-502) -/

/-- Mutable state of one interactive session: the cursor (`selected`),
the overlay popup (`show_popup`, `user_input`, `character_index`) and the
two global toggle flags.  Overlay text is modelled at character
granularity, matching the character-counted cursor. -/
structure LoopState where
  selected : Nat
  showPopup : Bool
  userInput : List Char
  characterIndex : Nat
  autoplayNext : Bool
  shuffleNext : Bool
  deriving DecidableEq, Repr

/-- Embeds `AppState::clamp_cursor`: clamp to `[0, chars count]`. -/
def clampCursor (s : LoopState) (p : Nat) : Nat :=
  min p s.userInput.length

/-- Embeds `AppState::move_cursor_left` (saturating decrement, then
clamp). -/
def moveCursorLeft (s : LoopState) : LoopState :=
  { s with characterIndex := clampCursor s (s.characterIndex - 1) }

/-- Embeds `AppState::move_cursor_right` (increment, then clamp). -/
def moveCursorRight (s : LoopState) : LoopState :=
  { s with characterIndex := clampCursor s (s.characterIndex + 1) }

/-- Rust `String::insert(i, c)` at byte granularity: walking the text,
each character spans `Char.utf8Size` bytes.  Inserting at byte offset 0
of the remaining text, or exactly past a whole character, succeeds;
an offset strictly inside a character's encoding, or beyond the end of
the text, is the Rust panic, modelled as `none`. -/
def byteInsert (c : Char) : List Char → Nat → Option (List Char)
  | cs, 0 => some (c :: cs)
  | [], _ + 1 => none
  | d :: ds, i + 1 =>
    if i + 1 < d.utf8Size then none
    else (byteInsert c ds (i + 1 - d.utf8Size)).map fun t => d :: t

/-- Embeds `AppState::enter_char`: `String::insert` at the cursor —
which the Rust passes as a byte index although it is maintained in
characters — then move the cursor right (the clamp uses the grown
text).  `none` is the byte-boundary panic of `String::insert`. -/
def enterChar (s : LoopState) (c : Char) : Option LoopState :=
  (byteInsert c s.userInput s.characterIndex).map fun t =>
    moveCursorRight { s with userInput := t }

/-- Embeds `AppState::delete_char`: when the cursor is not leftmost,
drop the character just left of it and move the cursor left; otherwise
do nothing. -/
def deleteChar (s : LoopState) : LoopState :=
  if s.characterIndex ≠ 0 then
    moveCursorLeft
      { s with userInput :=
          s.userInput.take (s.characterIndex - 1) ++
            s.userInput.drop s.characterIndex }
  else s

/-- Embeds `AppState::reset_cursor`. -/
def resetCursor (s : LoopState) : LoopState :=
  { s with characterIndex := 0 }

/-- Embeds `AppState::clear_input`: clear the text, reset the cursor. -/
def clearInput (s : LoopState) : LoopState :=
  resetCursor { s with userInput := [] }

/-- Key events of the loop, as matched in `app` (`KeyCode` cases the
code distinguishes; `other` covers every remaining key). -/
inductive Key where
  | esc
  | up
  | down
  | enter
  | back
  | left
  | right
  | home
  | endKey
  | char (c : Char)
  | other
  deriving DecidableEq, Repr

/-- Result of one iteration of the `app` loop: keep looping (with the
new state and whether this iteration reset the idle clock), leave the
loop with a playback decision `(start_index, shuffle)`, leave it with an
exit request, or abort on the byte-boundary panic of `String::insert`. -/
inductive StepOut where
  | cont (s : LoopState) (timerReset : Bool)
  | deciding (startIndex : Nat) (shuffle : Bool)
  | exiting
  | panicked
  deriving DecidableEq, Repr

/-- Key handling while the popup is open: the overlay-editing branch of
`app` (lines 581-607). -/
def popupStep (s : LoopState) : Key → StepOut
  | .esc => .cont (clearInput { s with showPopup := false }) true
  | .char c =>
    match enterChar s c with
    | some t => .cont t true
    | none => .panicked
  | .back => .cont (deleteChar s) true
  | .left => .cont (moveCursorLeft s) true
  | .right => .cont (moveCursorRight s) true
  | .home => .cont (resetCursor s) true
  | .endKey => .cont { s with characterIndex := s.userInput.length } true
  | _ => .cont s true

/-- Key handling while the popup is closed: the navigation branch of
`app` (lines 610-657). -/
def browseStep (n : Nat) (s : LoopState) (randIdx : Nat) : Key → StepOut
  | .esc => .exiting
  | .up =>
    .cont { s with selected :=
      if s.selected > 0 then s.selected - 1 else n } true
  | .down =>
    .cont { s with selected :=
      if s.selected < n then s.selected + 1 else 0 } true
  | .enter =>
    if s.selected = n then .deciding randIdx true
    else if s.shuffleNext then .deciding s.selected true
    else .deciding s.selected false
  | .char c =>
    if c = 'n' then .cont { s with autoplayNext := !s.autoplayNext } true
    else if c = 's' then .cont { s with shuffleNext := !s.shuffleNext } true
    else if c = ' ' then .cont { s with showPopup := !s.showPopup } true
    else .cont s true
  | _ => .cont s true

/-- One iteration of the `app` loop body (lines 554-661).  `n` is the
catalog length, `elapsed` the seconds since the last input, `inp` the
polled key event (`none` when the poll timed out), and `randIdx` the
value the `rand::thread_rng().gen_range(0..n)` draw would produce (the
rand contract guarantees `randIdx < n`; theorems carry that as a
hypothesis).  The timeout check happens before the popup check, exactly
as in the source. -/
def appStep (n : Nat) (s : LoopState) (elapsed : Nat) (inp : Option Key)
    (randIdx : Nat) : StepOut :=
  if 30 ≤ elapsed then .deciding randIdx true
  else
    match inp with
    | none => .cont s false
    | some k =>
      if s.showPopup then popupStep s k
      else browseStep n s randIdx k

/-! ### Claim C5: idle timeout -/

/-- C5 counterexample: the claim says the idle timeout never fires while
the overlay is being edited, but the elapsed-time check in `app` runs
before (and regardless of) the popup state: with the popup open and 30
seconds elapsed, the loop still transitions to `Deciding` with shuffle
forced true. -/
theorem idle_timeout_counterexample :
    (LoopState.mk 0 true [] 0 true false).showPopup = true ∧
    appStep 5 (LoopState.mk 0 true [] 0 true false) 30 none 2 =
      .deciding 2 true := by
  constructor
  · rfl
  · rfl

/-- C5 amended: the idle timeout (no input for at least 30 seconds)
fires in every interactive state — while browsing and also while the
overlay is being edited; when it fires it forces the uniformly drawn
random start index (in `[0, n)` by the rand contract), forces
shuffle = true, and transitions to `Deciding`; and whenever the
iteration keeps looping after a key in any state, the idle clock has
been reset. -/
theorem idle_timeout_fires (n : Nat) (s : LoopState) (elapsed : Nat)
    (inp : Option Key) (randIdx : Nat) (hr : randIdx < n) :
    (30 ≤ elapsed →
      appStep n s elapsed inp randIdx = .deciding randIdx true ∧ randIdx < n) ∧
    (∀ k s' r, appStep n s elapsed (some k) randIdx = .cont s' r → r = true) := by
  constructor
  · intro he
    exact ⟨by simp [appStep, he], hr⟩
  · intro k s' r h
    by_cases he : 30 ≤ elapsed
    · simp [appStep, he] at h
    · simp only [appStep, if_neg he] at h
      by_cases hp : s.showPopup
      · simp only [hp, if_true] at h
        cases k with
        | char c =>
          simp only [popupStep] at h
          cases henter : enterChar s c with
          | some t => rw [henter] at h; simp_all
          | none => rw [henter] at h; simp_all
        | _ => simp_all [popupStep]
      · simp only [hp, Bool.false_eq_true, if_false] at h
        cases k with
        | enter =>
          by_cases h1 : s.selected = n <;> by_cases h2 : s.shuffleNext <;>
            simp_all [browseStep]
        | char c =>
          by_cases h1 : c = 'n' <;> by_cases h2 : c = 's' <;>
            by_cases h3 : c = ' ' <;> simp_all [browseStep]
        | _ => simp_all [browseStep]

/-- Witness for C5 (amended): the spec's scenario — a 5-entry catalog,
30 simulated seconds without input — yields `Deciding` with shuffle true
and start index `2 ∈ [0, 5)`. -/
theorem idle_timeout_fires_witness :
    appStep 5 (LoopState.mk 0 false [] 0 true false) 30 none 2 =
      .deciding 2 true ∧ 2 < 5 :=
  (idle_timeout_fires 5 (LoopState.mk 0 false [] 0 true false) 30 none 2
    (by decide)).1 (by decide)

/-! ### Claim C6: cursor wraparound -/

/-- C6: while browsing (popup closed, timeout not due), move-up from
cursor 0 lands on `n` (the synthetic random-pick slot) and otherwise
decrements by one; move-down from `n` lands on 0 and otherwise (for any
cursor below `n`) increments by one; everything else in the state is
unchanged and the idle clock is reset. -/
theorem cursor_wraparound (n : Nat) (s : LoopState) (elapsed : Nat)
    (randIdx : Nat) (hp : s.showPopup = false) (he : elapsed < 30) :
    appStep n s elapsed (some .up) randIdx =
      .cont { s with selected := if s.selected = 0 then n else s.selected - 1 }
        true ∧
    appStep n s elapsed (some .down) randIdx =
      .cont { s with selected := if s.selected < n then s.selected + 1 else 0 }
        true := by
  have hne : ¬ 30 ≤ elapsed := Nat.not_le.mpr he
  constructor
  · simp only [appStep, if_neg hne, hp, Bool.false_eq_true, if_false]
    by_cases h0 : s.selected = 0
    · simp [browseStep, h0, hp]
    · have hpos : s.selected > 0 := Nat.pos_of_ne_zero h0
      simp [browseStep, h0, hpos, hp]
  · simp only [appStep, if_neg hne, hp, Bool.false_eq_true, if_false]
    simp [browseStep, hp]

/-- Witness for C6 on a 5-entry catalog: up from 0 lands on 5, down from
5 lands on 0. -/
theorem cursor_wraparound_witness :
    appStep 5 (LoopState.mk 0 false [] 0 true false) 0 (some .up) 0 =
      .cont (LoopState.mk 5 false [] 0 true false) true ∧
    appStep 5 (LoopState.mk 5 false [] 0 true false) 0 (some .down) 0 =
      .cont (LoopState.mk 0 false [] 0 true false) true := by
  constructor
  · have h := (cursor_wraparound 5 (LoopState.mk 0 false [] 0 true false) 0 0
      rfl (by decide)).1
    simpa using h
  · have h := (cursor_wraparound 5 (LoopState.mk 5 false [] 0 true false) 0 0
      rfl (by decide)).2
    simpa using h

/-! ### Claim C9: overlay-editing cursor invariant -/

/-- Overlay-editing operations of the popup branch of `app`: character
insert, delete-backward, cursor left/right/home/end. -/
inductive OverlayOp where
  | insert (c : Char)
  | deleteBack
  | left
  | right
  | home
  | toEnd
  deriving DecidableEq, Repr

/-- Dispatch of an overlay-editing operation, exactly as the popup
branch of `app` does (lines 588-605).  Character insert is fallible —
`String::insert` is byte-indexed and panics off character boundaries
(`none`); the remaining operations work in characters and are total. -/
def applyOverlay : OverlayOp → LoopState → Option LoopState
  | .insert c, s => enterChar s c
  | .deleteBack, s => some (deleteChar s)
  | .left, s => some (moveCursorLeft s)
  | .right, s => some (moveCursorRight s)
  | .home, s => some (resetCursor s)
  | .toEnd, s => some { s with characterIndex := s.userInput.length }

/-- The byte-faithful model keeps the reachable `String::insert` panic:
after typing one two-byte character into the empty overlay the cursor
(counted in characters) is 1, which is strictly inside that character's
UTF-8 encoding, so the next insert aborts. -/
theorem enterChar_panics_after_multibyte :
    enterChar (LoopState.mk 0 true [] 0 true false) (Char.ofNat 233) =
      some (LoopState.mk 0 true [Char.ofNat 233] 1 true false) ∧
    enterChar (LoopState.mk 0 true [Char.ofNat 233] 1 true false)
      (Char.ofNat 120) = none := by
  constructor
  · decide
  · decide

/-- C9: every overlay-editing operation that completes (character insert
can abort on the byte-boundary panic of `String::insert` and then yields
no state at all) leaves the overlay cursor inside `[0, length of the
overlay text in characters]` — the clamp establishes the invariant from
any state — and delete-backward at cursor position 0 is a no-op. -/
theorem overlay_cursor_invariant :
    (∀ (op : OverlayOp) (s t : LoopState),
      applyOverlay op s = some t →
      t.characterIndex ≤ t.userInput.length) ∧
    (∀ s : LoopState, s.characterIndex = 0 → deleteChar s = s) := by
  constructor
  · intro op s t hop
    cases op with
    | insert c =>
      simp only [applyOverlay, enterChar, Option.map_eq_some'] at hop
      obtain ⟨u, _, rfl⟩ := hop
      simp [moveCursorRight, clampCursor]
    | deleteBack =>
      simp only [applyOverlay, Option.some_inj] at hop
      subst hop
      by_cases h : s.characterIndex ≠ 0
      · simp [deleteChar, h, moveCursorLeft, clampCursor]
      · simp only [ne_eq, not_not] at h
        simp [deleteChar, h]
    | left =>
      simp only [applyOverlay, Option.some_inj] at hop
      subst hop
      simp [moveCursorLeft, clampCursor]
    | right =>
      simp only [applyOverlay, Option.some_inj] at hop
      subst hop
      simp [moveCursorRight, clampCursor]
    | home =>
      simp only [applyOverlay, Option.some_inj] at hop
      subst hop
      simp [resetCursor]
    | toEnd =>
      simp only [applyOverlay, Option.some_inj] at hop
      subst hop
      simp
  · intro s h
    simp [deleteChar, h]

/-- Witness for C9: a completed insert of `a` into the empty overlay
satisfies the cursor bound, and deleting backward from cursor 0 in a
non-empty overlay leaves the state untouched. -/
theorem overlay_cursor_invariant_witness :
    (LoopState.mk 0 true [Char.ofNat 97] 1 true false).characterIndex ≤
      (LoopState.mk 0 true [Char.ofNat 97] 1 true false).userInput.length ∧
    deleteChar (LoopState.mk 0 true [Char.ofNat 97] 0 true false) =
      LoopState.mk 0 true [Char.ofNat 97] 0 true false := by
  constructor
  · exact overlay_cursor_invariant.1 (.insert (Char.ofNat 97))
      (LoopState.mk 0 true [] 0 true false)
      (LoopState.mk 0 true [Char.ofNat 97] 1 true false) (by decide)
  · exact overlay_cursor_invariant.2
      (LoopState.mk 0 true [Char.ofNat 97] 0 true false) rfl

/-! ### Library scanner (`is_video`, lines 86-91, and `collect_movies`,
lines 99-137) -/

/-- The recognized video-file extension set (line 25), as character
lists. -/
def VIDEO_EXTENSIONS : List (List Char) :=
  ["mp4".toList, "mkv".toList, "avi".toList, "mov".toList, "webm".toList,
    "m4v".toList]

/-- Suffix after the last dot of a character list, or `none` when it has
no dot. -/
def afterLastDot : List Char → Option (List Char)
  | [] => none
  | c :: rest =>
    match afterLastDot rest with
    | some e => some e
    | none => if c = '.' then some rest else none

/-- Rust `Path::extension` on a file name: `none` when the name has no
dot, or begins with a dot and has no other dot; otherwise the portion
after the final dot. -/
def extensionOf : List Char → Option (List Char)
  | [] => none
  | c :: rest => if c = '.' then afterLastDot rest else afterLastDot (c :: rest)

/-- Embeds `is_video` (lines 86-91): the extension, lowercased, is in
the recognized set.  Case folding is ASCII `Char.toLower`, matching the
ASCII extension set. -/
def is_video (name : List Char) : Bool :=
  match extensionOf name with
  | some e => VIDEO_EXTENSIONS.contains (e.map Char.toLower)
  | none => false

/-- Whether a file name starts with the reserved AppleDouble metadata
marker `"._"` (the `fname.starts_with` test on line 108). -/
def startsWithMeta (name : List Char) : Bool :=
  List.isPrefixOf ['.', '_'] name

mutual
/-- A scanned directory tree: file names and directory names are
character lists; directory children keep `read_dir` order. -/
inductive FsTree where
  | file (name : List Char)
  | dir (name : List Char) (children : FsForest)
/-- Sibling entries of one directory. -/
inductive FsForest where
  | nil
  | cons (t : FsTree) (ts : FsForest)
end

mutual
/-- Embeds the body of the `collect_movies` loop (lines 101-134) for one
directory entry: a file is kept when it is a video and does not carry
the metadata marker; a directory is always descended into — its own
name is never tested. -/
def collectT : FsTree → List (List Char)
  | .file name =>
    if is_video name then (if startsWithMeta name then [] else [name])
    else []
  | .dir _ children => collectF children
/-- Embeds the `read_dir` iteration of `collect_movies` over the entries
of one directory. -/
def collectF : FsForest → List (List Char)
  | .nil => []
  | .cons t ts => collectT t ++ collectF ts
end

/-- Embeds the top-level `collect_movies(movies_dir, movies_dir, ...)`
call (line 139): the root is read as a directory (a non-directory root
yields nothing, per the `dir.is_dir()` guard). -/
def collect_movies : FsTree → List (List Char)
  | .file _ => []
  | .dir _ children => collectF children

mutual
/-- Every file name in a tree, at any depth, unfiltered. -/
def allFilesT : FsTree → List (List Char)
  | .file name => [name]
  | .dir _ children => allFilesF children
/-- Every file name in a forest, at any depth, unfiltered. -/
def allFilesF : FsForest → List (List Char)
  | .nil => []
  | .cons t ts => allFilesT t ++ allFilesF ts
end

mutual
/-- Modelled from the spec: the count of qualifying files claimed by C7,
under which "both files and directories whose name begins with that
prefix are excluded", so a directory carrying the metadata marker hides
its whole subtree.  Written from the spec's words, for comparison with
`collect_movies`. -/
def specScanCountT : FsTree → Nat
  | .file name => if is_video name && !startsWithMeta name then 1 else 0
  | .dir name children =>
    if startsWithMeta name then 0 else specScanCountF children
/-- Modelled from the spec: `specScanCountT` over a forest. -/
def specScanCountF : FsForest → Nat
  | .nil => 0
  | .cons t ts => specScanCountT t + specScanCountF ts
end

/-! ### Claim C7: what the scanner includes -/

/-- C7 counterexample: a tree `movies/._junk/a.mp4`.  The scanner's
`"._"` test applies only to files, never to directory names, so it
descends into `._junk` and catalogs `a.mp4` — 1 entry — while the
claim's qualifying-file count, which excludes prefixed directories,
says 0. -/
theorem scanner_excludes_dirs_counterexample :
    (collect_movies (FsTree.dir "movies".toList
        (FsForest.cons (FsTree.dir "._junk".toList
          (FsForest.cons (FsTree.file "a.mp4".toList) .nil)) .nil))).length ≠
      specScanCountT (FsTree.dir "movies".toList
        (FsForest.cons (FsTree.dir "._junk".toList
          (FsForest.cons (FsTree.file "a.mp4".toList) .nil)) .nil)) ∧
    (collect_movies (FsTree.dir "movies".toList
        (FsForest.cons (FsTree.dir "._junk".toList
          (FsForest.cons (FsTree.file "a.mp4".toList) .nil)) .nil))).length = 1 ∧
    specScanCountT (FsTree.dir "movies".toList
        (FsForest.cons (FsTree.dir "._junk".toList
          (FsForest.cons (FsTree.file "a.mp4".toList) .nil)) .nil)) = 0 := by
  refine ⟨?_, ?_, ?_⟩ <;> decide

mutual
/-- The scanner keeps, in depth-first order, exactly the files whose
extension is recognized and whose own name lacks the metadata marker —
directory names are never tested (tree part of the joint induction). -/
theorem collectT_eq_filter (t : FsTree) :
    collectT t = (allFilesT t).filter
      fun name => is_video name && !startsWithMeta name := by
  cases t with
  | file name =>
    by_cases hv : is_video name
    · by_cases hm : startsWithMeta name
      · simp [collectT, allFilesT, hv, hm]
      · simp [collectT, allFilesT, hv, hm]
    · simp [collectT, allFilesT, hv]
  | dir name children => simpa [collectT, allFilesT] using collectF_eq_filter children
/-- Forest part of the joint induction for `collectT_eq_filter`. -/
theorem collectF_eq_filter (ts : FsForest) :
    collectF ts = (allFilesF ts).filter
      fun name => is_video name && !startsWithMeta name := by
  cases ts with
  | nil => rfl
  | cons t ts =>
    simp only [collectF, allFilesF, List.filter_append]
    rw [collectT_eq_filter t, collectF_eq_filter ts]
end

/-- C7 amended: for every scanned directory tree the scanner descends
into every subdirectory regardless of its name, and the catalog contains
exactly the files — at any depth — whose extension is in the recognized
video-extension set compared case-insensitively and whose file name does
not begin with the reserved metadata marker; only files are tested
against the marker, and the entry count equals the count of such files. -/
theorem scanner_counts_qualifying_files (name : List Char) (children : FsForest) :
    collect_movies (.dir name children) =
      (allFilesF children).filter
        (fun nm => is_video nm && !startsWithMeta nm) ∧
    (collect_movies (.dir name children)).length =
      ((allFilesF children).filter
        (fun nm => is_video nm && !startsWithMeta nm)).length := by
  have h : collect_movies (.dir name children) =
      (allFilesF children).filter
        fun nm => is_video nm && !startsWithMeta nm := by
    simpa [collect_movies, allFilesT] using collectF_eq_filter children
  exact ⟨h, by rw [h]⟩

/-! ### Duration formatting (`format_duration`, lines 238-248) -/

/-- Rust `x as u64` on an `f64` truncates toward zero (and saturates
negatives at 0, which `Int.toNat` reproduces); `f64trunc` is that
truncation under exact rational semantics for the floating-point
values. -/
def f64trunc (a : ℚ) : ℤ :=
  if 0 ≤ a then Int.floor a else Int.ceil a

/-- Rust `%` on `f64`: remainder with the dividend's sign,
`a - b * trunc (a / b)`, under exact rational semantics. -/
def f64mod (a b : ℚ) : ℚ :=
  a - b * (f64trunc (a / b) : ℚ)

/-- Rust `format!("{:02}", n)`: decimal, left-padded with `0` to two
digits. -/
def pad2 (n : Nat) : String :=
  if n < 10 then "0" ++ toString n else toString n

/-- Embeds `format_duration` (lines 238-248), with the `f64` divisions,
remainders and casts under exact rational semantics. -/
def format_duration (seconds : ℚ) : String :=
  let hours : Nat := (f64trunc (seconds / 3600)).toNat
  let minutes : Nat := (f64trunc (f64mod seconds 3600 / 60)).toNat
  let secs : Nat := (f64trunc (f64mod seconds 60)).toNat
  if hours > 0 then
    toString hours ++ ":" ++ pad2 minutes ++ ":" ++ pad2 secs
  else
    toString minutes ++ ":" ++ pad2 secs

/-! ### Claim C8: duration formatting -/

/-- C8: for every non-negative duration the formatter produces
`H:MM:SS` exactly when the duration is at least one hour and `M:SS`
otherwise; every unit is obtained by floor-truncation — minutes and
seconds lie in `[0, 60)` and the three units decompose `⌊s⌋` exactly
(`3600h + 60m + sec ≤ s < 3600h + 60m + sec + 1`), so no unit is ever
rounded up. -/
theorem duration_format_floor (s : ℚ) (hs : 0 ≤ s) :
    ∃ h m sec : ℕ,
      format_duration s =
        (if 3600 ≤ s then
          toString h ++ ":" ++ pad2 m ++ ":" ++ pad2 sec
        else toString m ++ ":" ++ pad2 sec) ∧
      ((h : ℤ) = Int.floor (s / 3600)) ∧
      m < 60 ∧ sec < 60 ∧
      ((3600 * h + 60 * m + sec : ℚ) ≤ s) ∧
      s < (3600 * h + 60 * m + sec : ℚ) + 1 := by
  have h3600 : (0:ℚ) < 3600 := by norm_num
  have h60 : (0:ℚ) < 60 := by norm_num
  have hdiv1 : (0:ℚ) ≤ s / 3600 := div_nonneg hs h3600.le
  have hdiv2 : (0:ℚ) ≤ s / 60 := div_nonneg hs h60.le
  set H : ℤ := Int.floor (s / 3600) with hH
  set q : ℤ := Int.floor (s / 60) with hq
  have hHnn : 0 ≤ H := Int.floor_nonneg.mpr hdiv1
  have hqnn : 0 ≤ q := Int.floor_nonneg.mpr hdiv2
  have htr1 : f64trunc (s / 3600) = H := by rw [f64trunc, if_pos hdiv1]
  have htr2 : f64trunc (s / 60) = q := by rw [f64trunc, if_pos hdiv2]
  have hHle : (H : ℚ) * 3600 ≤ s := (le_div_iff₀ h3600).mp (Int.floor_le (s / 3600))
  have hHlt : s < ((H : ℚ) + 1) * 3600 := by
    have h1 : s / 3600 < (H : ℚ) + 1 := by
      have := Int.lt_floor_add_one (s / 3600)
      push_cast at this ⊢
      linarith
    calc s = s / 3600 * 3600 := by field_simp
    _ < ((H : ℚ) + 1) * 3600 := by
      exact mul_lt_mul_of_pos_right h1 h3600
  have hqle : (q : ℚ) * 60 ≤ s := (le_div_iff₀ h60).mp (Int.floor_le (s / 60))
  have hqlt : s < ((q : ℚ) + 1) * 60 := by
    have h1 : s / 60 < (q : ℚ) + 1 := by
      have := Int.lt_floor_add_one (s / 60)
      push_cast at this ⊢
      linarith
    calc s = s / 60 * 60 := by field_simp
    _ < ((q : ℚ) + 1) * 60 := mul_lt_mul_of_pos_right h1 h60
  have hfm1 : f64mod s 3600 = s - 3600 * (H : ℚ) := by rw [f64mod, htr1]
  have hfm2 : f64mod s 60 = s - 60 * (q : ℚ) := by rw [f64mod, htr2]
  have hfm1nn : 0 ≤ f64mod s 3600 := by rw [hfm1]; linarith
  have hfm1lt : f64mod s 3600 < 3600 := by rw [hfm1]; linarith
  have hfm2nn : 0 ≤ f64mod s 60 := by rw [hfm2]; linarith
  have hfm2lt : f64mod s 60 < 60 := by rw [hfm2]; linarith
  have hdiv3 : (0:ℚ) ≤ f64mod s 3600 / 60 := div_nonneg hfm1nn h60.le
  set M : ℤ := Int.floor (f64mod s 3600 / 60) with hM
  set S : ℤ := Int.floor (f64mod s 60) with hS
  have htr3 : f64trunc (f64mod s 3600 / 60) = M := by rw [f64trunc, if_pos hdiv3]
  have htr4 : f64trunc (f64mod s 60) = S := by rw [f64trunc, if_pos hfm2nn]
  have hMnn : 0 ≤ M := Int.floor_nonneg.mpr hdiv3
  have hSnn : 0 ≤ S := Int.floor_nonneg.mpr hfm2nn
  have hMlt : M < 60 := by
    rw [hM]
    exact Int.floor_lt.mpr (by
      rw [div_lt_iff₀ h60]
      push_cast
      linarith)
  have hSlt : S < 60 := by
    rw [hS]
    exact Int.floor_lt.mpr (by push_cast; linarith)
  have hMeq : M = q - 60 * H := by
    rw [hM]
    have he : f64mod s 3600 / 60 = s / 60 - ((60 * H : ℤ) : ℚ) := by
      rw [hfm1]
      push_cast
      ring
    rw [he, Int.floor_sub_int, ← hq]
  have hSeq : S = Int.floor s - 60 * q := by
    rw [hS]
    have he : f64mod s 60 = s - ((60 * q : ℤ) : ℚ) := by
      rw [hfm2]
      push_cast
      ring
    rw [he, Int.floor_sub_int]
  refine ⟨H.toNat, M.toNat, S.toNat, ?_, ?_, ?_, ?_, ?_, ?_⟩
  · have hcond : 0 < H.toNat ↔ (3600:ℚ) ≤ s := by
      constructor
      · intro hpos
        have h1 : (1:ℤ) ≤ H := by omega
        have h2 : (1:ℚ) ≤ s / 3600 := by
          have := Int.le_floor.mp h1
          push_cast at this
          exact this
        calc (3600:ℚ) = 1 * 3600 := by norm_num
        _ ≤ s := (le_div_iff₀ h3600).mp h2
      · intro hge
        have h2 : (1:ℚ) ≤ s / 3600 := by
          rw [le_div_iff₀ h3600]
          linarith
        have h1 : (1:ℤ) ≤ H := Int.le_floor.mpr (by push_cast; exact h2)
        omega
    simp only [format_duration, htr1, htr3, htr4]
    by_cases hc : (3600:ℚ) ≤ s
    · rw [if_pos (hcond.mpr hc), if_pos hc]
    · rw [if_neg (fun hpos => hc (hcond.mp hpos)), if_neg hc]
  · rw [Int.toNat_of_nonneg hHnn]
  · omega
  · omega
  · have hid : ((3600 * H.toNat + 60 * M.toNat + S.toNat : ℤ) : ℚ) =
        ((Int.floor s : ℤ) : ℚ) := by
      rw [Int.toNat_of_nonneg hHnn, Int.toNat_of_nonneg hMnn,
        Int.toNat_of_nonneg hSnn, hMeq, hSeq]
      push_cast
      ring
    have hle := Int.floor_le s
    push_cast at hid ⊢
    linarith
  · have hid : ((3600 * H.toNat + 60 * M.toNat + S.toNat : ℤ) : ℚ) =
        ((Int.floor s : ℤ) : ℚ) := by
      rw [Int.toNat_of_nonneg hHnn, Int.toNat_of_nonneg hMnn,
        Int.toNat_of_nonneg hSnn, hMeq, hSeq]
      push_cast
      ring
    have hlt := Int.lt_floor_add_one s
    push_cast at hid ⊢
    linarith

/-- Witness for C8 at the spec's examples: `3661.0` seconds formats as
`"1:01:01"` and `125.0` seconds as `"2:05"`. -/
theorem duration_format_floor_witness :
    format_duration (3661 : ℚ) = "1:01:01" ∧
    format_duration (125 : ℚ) = "2:05" := by
  obtain ⟨h1, m1, s1, hf1, hh1, hm1, hs1, hlo1, hhi1⟩ :=
    duration_format_floor 3661 (by norm_num)
  obtain ⟨h2, m2, s2, hf2, hh2, hm2, hs2, hlo2, hhi2⟩ :=
    duration_format_floor 125 (by norm_num)
  have hfl1 : Int.floor ((3661:ℚ) / 3600) = 1 := by
    rw [Int.floor_eq_iff]
    constructor
    · push_cast
      norm_num
    · push_cast
      norm_num
  have hfl2 : Int.floor ((125:ℚ) / 3600) = 0 := by
    rw [Int.floor_eq_iff]
    constructor
    · push_cast
      norm_num
    · push_cast
      norm_num
  rw [hfl1] at hh1
  rw [hfl2] at hh2
  have hh1n : h1 = 1 := by exact_mod_cast hh1
  have hh2n : h2 = 0 := by exact_mod_cast hh2
  subst hh1n
  subst hh2n
  have hlo1n : 3600 * 1 + 60 * m1 + s1 ≤ 3661 := by exact_mod_cast hlo1
  have hhi1n : 3661 < 3600 * 1 + 60 * m1 + s1 + 1 := by exact_mod_cast hhi1
  have hm1n : m1 = 1 := by omega
  have hs1n : s1 = 1 := by omega
  have hlo2n : 3600 * 0 + 60 * m2 + s2 ≤ 125 := by exact_mod_cast hlo2
  have hhi2n : 125 < 3600 * 0 + 60 * m2 + s2 + 1 := by exact_mod_cast hhi2
  have hm2n : m2 = 2 := by omega
  have hs2n : s2 = 5 := by omega
  subst hm1n
  subst hs1n
  subst hm2n
  subst hs2n
  rw [if_pos (by norm_num : (3600:ℚ) ≤ 3661)] at hf1
  rw [if_neg (by norm_num : ¬ (3600:ℚ) ≤ 125)] at hf2
  exact ⟨hf1.trans (by decide), hf2.trans (by decide)⟩

end MoviePlayer
